import Mathlib

/-!
Verification of the yggit stacked-commit workflow manager.

The development shallowly embeds the core components of the repository:

* `GitRs` — the push negotiation state machine and the note store of
  `src/git/git.rs` (`Git::push`, its `push_negotiation` callback, and
  `Git::find_note`).
* `YGit` — the negotiation callbacks and outcome classification of
  `crates/yggit-git/src/lib.rs` (`Git::custom_push`).
* `CoreRs` — the merge engine and push loop of `src/core.rs`
  (`merge_notes`, `push_from_notes`).
* `YParser` — the plan line types and renderer of
  `crates/yggit-parser/src/lib.rs` together with the line grammar.  The
  pest grammar file `parser.pest` is not part of the sources, so the
  grammar itself is modelled from the specification text.
* `YCore` — the `push`/`apply` pipeline of `crates/yggit-core/src/lib.rs`.

Plan text and note blobs are line oriented; the embedding represents a
text either as a `List String` of its lines or as a single `String`
containing embedded newline characters, and provides structurally
recursive helpers (`Str.splitChar`, `Str.joinLines`, ...) mirroring the
Rust `str::split` semantics so that every definition is executable.
External collaborators (the transport, the editor, serde decoding) enter
as explicit parameters, exactly at the interface the source consumes.
-/

namespace Str

/-- Mirrors Rust `str::split(c)`: `n` separators yield `n + 1` pieces. -/
def splitChar (c : Char) (l : List Char) : List (List Char) :=
  match l with
  | [] => [[]]
  | x :: xs =>
    if x = c then [] :: splitChar c xs
    else
      match splitChar c xs with
      | [] => [[x]]
      | h :: t => (x :: h) :: t

/-- Split a character list at the first occurrence of `c`; the second
component is `none` when `c` does not occur (Rust `split_once`). -/
def splitFirst (c : Char) (l : List Char) : List Char × Option (List Char) :=
  match l with
  | [] => ([], none)
  | x :: xs =>
    if x = c then ([], some xs)
    else
      let p := splitFirst c xs
      (x :: p.1, p.2)

/-- Join lines with a newline separator (inverse of splitting on `\n`). -/
def joinLines : List (List Char) → List Char
  | [] => []
  | [l] => l
  | l :: ls => l ++ '\n' :: joinLines ls

/-- A line is blank when every character is whitespace; Rust
`str::trim().is_empty()`. -/
def isBlankLine (l : List Char) : Bool :=
  l.all Char.isWhitespace

end Str

namespace GitRs

/-- `PushMode` of `src/git/git.rs`. -/
inductive PushMode
  | Normal
  | Force
  | ForceWithLease
deriving DecidableEq

/-- `PushError` of `Git::push` in `src/git/git.rs`. -/
inductive PushError
  | NotYetImplemented
  | NoUpdate
  | RemoteOriginDiverged
deriving DecidableEq

/-- `PushStatus` of `Git::push` in `src/git/git.rs`. -/
inductive PushStatus
  | Pushed
  | NewBranchPushed
  | Error (e : PushError)
deriving DecidableEq

/-- One entry of the `remote_updates` slice handed to the
`push_negotiation` callback: the remote's current position of the ref
(`src`), the source refname, and the requested new position (`dst`).
Object ids are natural numbers; `0` models the null/zero oid. -/
structure RemoteUpdate where
  src : Nat
  srcRefname : Option String
  dst : Nat
deriving DecidableEq

/-- The repository's reference store, as consulted by the callback:
`find_reference(name)` followed by `peel_to_commit().id()`. -/
structure Repo where
  refs : String → Option Nat

/-- `local_origin_name.strip_prefix("refs/heads/")` of the source:
removes the leading `refs/heads/` or fails. -/
def stripRefsHeads (s : String) : Option String :=
  if (s.data.take 11) = ("refs/heads/").data then some (String.mk (s.data.drop 11))
  else none

/-- The remote-tracking position recorded locally for a branch:
`repository.find_reference("refs/remotes/{origin}/{upstream}")`, peeled
to a commit id. -/
def findRemoteOid (repo : Repo) (origin upstream : String) : Option Nat :=
  repo.refs (("refs/remotes/") ++ origin ++ ("/") ++ upstream)

/-- The `push_negotiation` callback of `Git::push` in `src/git/git.rs`.
Returns the captured `PushStatus` cell (initially `none`) and whether the
callback returned `Ok` — libgit2 only proceeds to transfer data when the
callback accepts, so the boolean also models "data is transferred". -/
def negotiationCallback (repo : Repo) (origin : String) (mode : PushMode)
    (remoteUpdates : List RemoteUpdate) : Option PushStatus × Bool :=
  match remoteUpdates.head? with
  | none => (some (PushStatus.Error PushError.NoUpdate), false)
  | some u =>
    if u.src = 0 then (some PushStatus.NewBranchPushed, true)
    else
      match mode with
      | PushMode.Normal => (some (PushStatus.Error PushError.NotYetImplemented), false)
      | PushMode.Force => (some PushStatus.Pushed, true)
      | PushMode.ForceWithLease =>
        match u.srcRefname with
        | none => (none, false)
        | some rn =>
          match stripRefsHeads rn with
          | none => (none, false)
          | some upstream =>
            match findRemoteOid repo origin upstream with
            | none => (none, false)
            | some localOriginOid =>
              if u.src = localOriginOid then (some PushStatus.Pushed, true)
              else (some (PushStatus.Error PushError.RemoteOriginDiverged), false)

/-- The final match of `Git::push` on the captured status; the result of
`remote.push` itself is discarded by the source (`let _ = remote.push`). -/
def pushResult (status : Option PushStatus) : Except String Unit :=
  match status with
  | some (PushStatus.Error PushError.NoUpdate) => Except.error ("not pushed")
  | some (PushStatus.Error PushError.NotYetImplemented) => Except.error ("not yet implemented")
  | some (PushStatus.Error PushError.RemoteOriginDiverged) => Except.error ("remote has diverged")
  | some PushStatus.Pushed => Except.ok ()
  | some PushStatus.NewBranchPushed => Except.ok ()
  | none => Except.ok ()

/-- `Git::push` of `src/git/git.rs`: negotiation, then classification of
the captured status.  The boolean records whether data transfer was
allowed to proceed. -/
def push (repo : Repo) (origin : String) (mode : PushMode)
    (remoteUpdates : List RemoteUpdate) : Except String Unit × Bool :=
  let r := negotiationCallback repo origin mode remoteUpdates
  (pushResult r.1, r.2)

/-- Modelled from the spec: acceptance condition the specification
assigns to `Normal` mode — "only accept if the requested update is a
strict fast-forward of the remote's current position".  `isDescendant d s`
is the ancestry oracle (`d` is a descendant of `s`). -/
def normalAcceptSpec (isDescendant : Nat → Nat → Bool) (remoteSrc localDst : Nat) : Bool :=
  isDescendant localDst remoteSrc && decide (localDst ≠ remoteSrc)

/-- Keep a note line iff it is non-blank:
`!str.trim().is_empty()` of `Git::find_note`. -/
def lineNonBlank (l : List Char) : Bool :=
  !(Str.isBlankLine l)

/-- `Git::find_note` of `src/git/git.rs`: read the note blob, drop blank
lines, keep the last non-empty line, deserialize it.  The serde decoding
step is the parameter `d`. -/
def findNote {α : Type} (d : String → Option α) (blob : Option String) : Option α :=
  blob.bind fun s =>
    ((((Str.splitChar '\n' s.data).filter lineNonBlank).getLast?).map String.mk).bind d

end GitRs

namespace YGit

/-- `NegotiationResult` of `crates/yggit-git/src/lib.rs`. -/
inductive NegotiationResult
  | NoPushNeeded
  | RemoteDiverged
  | AllowedToPush
  | AllowedToPushNewBranch
deriving DecidableEq

/-- `GitError` of `crates/yggit-git/src/lib.rs`. -/
inductive GitError
  | NoMainBranch
  | BranchNotFound (branch : String)
  | CommitOfBranchNotFound (branch : String)
  | CannotListCommit
  | InvalidOid
  | HeadNotPresent
  | CannotReach (a b : Nat)
  | ConfigNotFound
  | RemoteNotFound (origin : String)
  | NotPushed (branch origin reason : String)
  | NotYetImplemented (feature : String)
  | CommitNotFound (oid : Nat)
deriving DecidableEq

/-- The `push_negotiation` callback installed by `Git::custom_push` for
`PushMode::Normal | PushMode::Force`: every update against an existing
remote branch is accepted. -/
def negotiationNF (remoteUpdates : List GitRs.RemoteUpdate) :
    Option NegotiationResult × Bool :=
  match remoteUpdates.head? with
  | none => (some NegotiationResult.NoPushNeeded, false)
  | some u =>
    if u.src = 0 then (some NegotiationResult.AllowedToPushNewBranch, true)
    else (some NegotiationResult.AllowedToPush, true)

/-- The `push_negotiation` callback installed by `Git::custom_push` for
`PushMode::ForceWithLease`: compare the remote's reported position with
the locally recorded remote-tracking position. -/
def negotiationFWL (repo : GitRs.Repo) (origin : String)
    (remoteUpdates : List GitRs.RemoteUpdate) : Option NegotiationResult × Bool :=
  match remoteUpdates.head? with
  | none => (some NegotiationResult.NoPushNeeded, false)
  | some u =>
    if u.src = 0 then (some NegotiationResult.AllowedToPushNewBranch, true)
    else
      match u.srcRefname with
      | none => (none, false)
      | some rn =>
        match GitRs.stripRefsHeads rn with
        | none => (none, false)
        | some upstream =>
          match GitRs.findRemoteOid repo origin upstream with
          | none => (none, false)
          | some localOriginOid =>
            if u.src = localOriginOid then (some NegotiationResult.AllowedToPush, true)
            else (some NegotiationResult.RemoteDiverged, false)

/-- The final `match (negotiation_result, push_res)` of `Git::custom_push`;
`pushRes` is the transport outcome of `remote.push`. -/
def customPushResult (branch origin : String) (nr : NegotiationResult)
    (pushRes : Except String Unit) : Except GitError Unit :=
  match nr, pushRes with
  | NegotiationResult.NoPushNeeded, _ => Except.ok ()
  | NegotiationResult.RemoteDiverged, _ =>
    Except.error (GitError.NotPushed branch origin
      ("the origin on the server is not the same as the local one"))
  | NegotiationResult.AllowedToPush, Except.error e =>
    Except.error (GitError.NotPushed branch origin e)
  | NegotiationResult.AllowedToPushNewBranch, Except.error e =>
    Except.error (GitError.NotPushed branch origin e)
  | NegotiationResult.AllowedToPush, Except.ok () => Except.ok ()
  | NegotiationResult.AllowedToPushNewBranch, Except.ok () => Except.ok ()

end YGit

namespace CoreRs

/-- `Push` of `src/core.rs`: the push target stored in a note. -/
structure Push where
  target : String
deriving DecidableEq

/-- `Note` of `src/core.rs`: the metadata record stored per commit. -/
structure Note where
  push : Option Push
  tests : List String
deriving DecidableEq

/-- `Note::default()`: the all-empty record. -/
def Note.default : Note :=
  { push := none, tests := [] }

/-- `Note::is_empty`: compare with the default record. -/
def Note.isEmpty (n : Note) : Bool :=
  n = Note.default

/-- `NoteMergingPolicy` of `src/core.rs`. -/
inductive NoteMergingPolicy
  | OnlyTarget
  | OnlyTests
deriving DecidableEq

/-- The parsed plan entry consumed by `merge_notes`
(`crate::parser::Commit`): commit hash, optional push target, tests. -/
structure Commit where
  hash : Nat
  target : Option String
  tests : List String
deriving DecidableEq

/-- The `next_note` computation inside `merge_notes` of `src/core.rs`:
overwrite only the field the policy covers, starting from the stored
record (default when absent). -/
def nextNote (currentNote : Option Note) (policy : NoteMergingPolicy)
    (newCommit : Commit) : Note :=
  match policy with
  | NoteMergingPolicy.OnlyTarget =>
    let c := currentNote.getD Note.default
    match newCommit.target with
    | some t => { c with push := some { target := t } }
    | none => { c with push := none }
  | NoteMergingPolicy.OnlyTests =>
    let c := currentNote.getD Note.default
    { c with tests := newCommit.tests }

/-- `merge_notes` of `src/core.rs`, acting on the note store (a map from
commit id to stored record): for each instruction compute `next_note`,
then delete the record when it is empty and write it otherwise. -/
def mergeNotes (notes : Nat → Option Note) (policy : NoteMergingPolicy) :
    List Commit → (Nat → Option Note)
  | [] => notes
  | c :: rest =>
    let nn := nextNote (notes c.hash) policy c
    let notes' : Nat → Option Note :=
      if nn.isEmpty then fun o => if o = c.hash then none else notes o
      else fun o => if o = c.hash then some nn else notes o
    mergeNotes notes' policy rest

/-- `EnhancedCommit<Note>` as listed by `git.list_commits()`. -/
structure EnhancedCommit where
  id : Nat
  title : String
  description : Option String
  note : Option Note
deriving DecidableEq

/-- The repository view consumed by `push_from_notes` of `src/core.rs`:
the listed commits and the three head oracles it queries per target
branch (collaborator interface; these helpers live outside `src/`). -/
structure GitView where
  commits : List EnhancedCommit
  findLocalRemoteHead : String → Option Nat
  findRemoteHead : String → Option Nat
  headOf : String → Option Nat

/-- The push target carried by a commit's note, when any (the pattern
`Some(Note { push: Some(Push { target }), .. })` of `push_from_notes`). -/
def targetOf (c : EnhancedCommit) : Option String :=
  match c.note with
  | some n =>
    match n.push with
    | some p => some p.target
    | none => none
  | none => none

/-- First loop of `push_from_notes`: move every branch that carries a
push target to its commit. -/
def movePhase (g : GitView) : List (String × Nat) :=
  g.commits.filterMap fun c => (targetOf c).map fun t => (t, c.id)

/-- Second loop of `push_from_notes`: walk the commits in order and
collect the branches whose push is attempted.  A diverged branch
(`local_remote_commit != remote_commit`) executes `return`, ending the
whole loop; an up-to-date branch executes `continue`. -/
def pushLoop (g : GitView) : List EnhancedCommit → List String
  | [] => []
  | c :: rest =>
    match targetOf c with
    | none => pushLoop g rest
    | some target =>
      if g.findLocalRemoteHead target ≠ g.findRemoteHead target then []
      else if g.headOf target = g.findRemoteHead target then pushLoop g rest
      else target :: pushLoop g rest

/-- `push_from_notes` of `src/core.rs`: branch moves, then the push loop.
Returns the performed moves and the branches whose push was attempted. -/
def pushFromNotes (g : GitView) : List (String × Nat) × List String :=
  (movePhase g, pushLoop g g.commits)

end CoreRs

namespace YParser

/-- `Commit` of `crates/yggit-parser/src/lib.rs`. -/
structure Commit where
  sha : String
  title : String
deriving DecidableEq

/-- `Branch` of `crates/yggit-parser/src/lib.rs`. -/
structure Branch where
  origin : Option String
  name : String
deriving DecidableEq

/-- `Line` of `crates/yggit-parser/src/lib.rs`. -/
inductive Line
  | Commit (c : YParser.Commit)
  | Branch (b : YParser.Branch)
deriving DecidableEq

/-- `ParserError` of `crates/yggit-parser/src/lib.rs`. -/
inductive ParserError
  | Unknown
  | IsNotLine (line : String)
  | IsNotFile
  | TokenExpected
  | InvalidToken
deriving DecidableEq

/-- `impl Display for Line`: render one plan line. -/
def renderLine : Line → String
  | Line.Commit c => c.sha ++ (" ") ++ c.title
  | Line.Branch b =>
    match b.origin with
    | some origin => ("-> ") ++ origin ++ (":") ++ b.name
    | none => ("-> ") ++ b.name

/-- Render a plan: one string per line, joined with newlines by the
callers in `crates/yggit-core` (`.map(to_string).join("\n")`). -/
def renderLines (ls : List Line) : List String :=
  ls.map renderLine

/-- Modelled from the spec: hex digit of a commit id
(`parser.pest` is absent from the sources). -/
def isHexDigitCh (c : Char) : Bool :=
  c.isDigit || ('a' ≤ c && c ≤ 'f') || ('A' ≤ c && c ≤ 'F')

/-- Modelled from the spec: a commit id token is a non-empty run of hex
digits. -/
def shaOk (cs : List Char) : Bool :=
  !cs.isEmpty && cs.all isHexDigitCh

/-- Modelled from the spec: characters allowed in a branch or origin
token (no whitespace, no `:` separator). -/
def branchChar (c : Char) : Bool :=
  !c.isWhitespace && c ≠ ':'

/-- Modelled from the spec: a branch/origin token is a non-empty run of
branch characters. -/
def branchOk (cs : List Char) : Bool :=
  !cs.isEmpty && cs.all branchChar

/-- Modelled from the spec: parse the payload of a target line
`-> [origin:]branch`; a `:` splits origin from branch name.  Any
grammar violation fails the whole file (`ParserError::IsNotFile`, as
`parse_file` maps every pest failure to it). -/
def parseBranch (rest : List Char) : Except ParserError (Option Line) :=
  match Str.splitFirst ':' rest with
  | (a, none) =>
    if branchOk a then Except.ok (some (Line.Branch { origin := none, name := String.mk a }))
    else Except.error ParserError.IsNotFile
  | (a, some b) =>
    if branchOk a && branchOk b then
      Except.ok (some (Line.Branch { origin := some (String.mk a), name := String.mk b }))
    else Except.error ParserError.IsNotFile

/-- Modelled from the spec: parse a commit line `<commit-id> <title>`. -/
def parseCommit (cs : List Char) : Except ParserError (Option Line) :=
  match Str.splitFirst ' ' cs with
  | (sha, some title) =>
    if shaOk sha then
      Except.ok (some (Line.Commit { sha := String.mk sha, title := String.mk title }))
    else Except.error ParserError.IsNotFile
  | (_, none) => Except.error ParserError.IsNotFile

/-- Modelled from the spec: classify and parse one plan line — blank
lines separate entries, `#` starts a comment, `-> ` starts a target
line, anything else must be a commit line. -/
def parseLineChars (cs : List Char) : Except ParserError (Option Line) :=
  if Str.isBlankLine cs then Except.ok none
  else if cs.head? = some '#' then Except.ok none
  else if cs.take 3 = [('-'), ('>'), (' ')] then parseBranch (cs.drop 3)
  else parseCommit cs

/-- Parse one plan line given as a string. -/
def parseLine (l : String) : Except ParserError (Option Line) :=
  parseLineChars l.data

/-- `Parser::parse_file` over the lines of the plan: the ordered list of
parsed `Line`s, comments and blank lines skipped, any malformed line
rejecting the whole plan. -/
def parseLines : List String → Except ParserError (List Line)
  | [] => Except.ok []
  | l :: ls =>
    match parseLine l with
    | Except.error e => Except.error e
    | Except.ok none => parseLines ls
    | Except.ok (some x) =>
      match parseLines ls with
      | Except.error e => Except.error e
      | Except.ok xs => Except.ok (x :: xs)

/-- Well-formedness of a line's payload: exactly the tokens the grammar
can represent (hex commit id, newline-free title, valid branch/origin
tokens). -/
def lineWF : Line → Bool
  | Line.Commit c => shaOk c.sha.data && !(c.title.data.contains '\n')
  | Line.Branch b =>
    branchOk b.name.data &&
      (match b.origin with
       | none => true
       | some o => branchOk o.data)

end YParser

namespace YCore

/-- `CoreError` of `crates/yggit-core/src/lib.rs`.  The database and
editor error payloads are kept abstract as strings. -/
inductive CoreError
  | GitError (e : YGit.GitError)
  | DatabaseError (e : String)
  | EditorError (e : String)
  | ParserError (e : YParser.ParserError)
  | OidParsing (sha : String)
deriving DecidableEq

/-- `Branch` of `crates/yggit-core/src/lib.rs`: the record persisted per
commit under the `branch` key. -/
structure Branch where
  target : String
  origin : Option String
deriving DecidableEq

/-- The commit handed to the core by `git.list_commits` (the
`yggit_git::Commit` interface consumed by the core: identity rendered as
its canonical 40-character hex string, plus the title). -/
structure Commit where
  oid : String
  title : String
deriving DecidableEq

/-- The metadata store restricted to the `branch` key: an association
list from commit id to the persisted `Branch` record. -/
abbrev Db := List (String × Branch)

/-- `db.read(oid, "branch")` — first binding of the key. -/
def lookupKV (k : String) : Db → Option Branch
  | [] => none
  | (k', v) :: rest => if k' = k then some v else lookupKV k rest

/-- `db.write(oid, "branch", v)` — replace the binding, or append it. -/
def insertKV (k : String) (v : Branch) : Db → Db
  | [] => [(k, v)]
  | (k', v') :: rest => if k' = k then (k, v) :: rest else (k', v') :: insertKV k v rest

/-- `db.delete(oid, "branch")` — drop every binding of the key (the
store is a map, so the key occurs at most once; removing all occurrences
keeps the association-list representation faithful to map deletion). -/
def eraseKV (k : String) : Db → Db
  | [] => []
  | (k', v') :: rest => if k' = k then eraseKV k rest else (k', v') :: eraseKV k rest

/-- `Oid::from_str` on the sha token of a parsed commit line: accepts a
non-empty hex string of at most 40 characters; shorter strings are
zero-extended to the canonical 40-character form. -/
def oidFromStr (s : String) : Option String :=
  if 0 < s.length && s.length ≤ 40 && s.data.all YParser.isHexDigitCh then
    some (String.mk (s.data ++ List.replicate (40 - s.length) ('0')))
  else none

/-- The todo text rendered by `push`/`show` in `crates/yggit-core`: per
commit its commit line, then its target line when the store holds a
`branch` record for it. -/
def todoLines (commits : List Commit) (db : Db) : List String :=
  commits.flatMap fun c =>
    match lookupKV c.oid db with
    | some b =>
      [YParser.renderLine (YParser.Line.Commit { sha := c.oid, title := c.title }),
       YParser.renderLine (YParser.Line.Branch { origin := b.origin, name := b.target })]
    | none => [YParser.renderLine (YParser.Line.Commit { sha := c.oid, title := c.title })]

/-- `parsed_todo.windows(2)` of `crates/yggit-core`. -/
def windows2 {α : Type} : List α → List (α × α)
  | x :: y :: rest => (x, y) :: windows2 (y :: rest)
  | _ => []

/-- The `(Commit, Branch)` adjacent-pair collection of `push` in
`crates/yggit-core`: validate each sha with `Oid::from_str`, stop at the
first failure, and collect into a map where a later binding of the same
key overwrites the earlier one (`HashMap` collect semantics). -/
def buildBranchesGo : List (YParser.Line × YParser.Line) → Db → Except CoreError Db
  | [], acc => Except.ok acc
  | (YParser.Line.Commit c, YParser.Line.Branch b) :: rest, acc =>
    match oidFromStr c.sha with
    | none => Except.error (CoreError.OidParsing c.sha)
    | some oid => buildBranchesGo rest (insertKV oid { target := b.name, origin := b.origin } acc)
  | _ :: rest, acc => buildBranchesGo rest acc

/-- Entry point of the pair collection, starting from the empty map. -/
def buildBranches (ps : List (YParser.Line × YParser.Line)) : Except CoreError Db :=
  buildBranchesGo ps []

/-- The save-state loop of `push` in `crates/yggit-core`: for every
listed commit delete its `branch` record, then re-write it when the
edited plan assigns it a target. -/
def saveState (bm : Db) : List Commit → Db → Db
  | [], db => db
  | c :: rest, db =>
    let db1 := eraseKV c.oid db
    let db2 :=
      match lookupKV c.oid bm with
      | some b => insertKV c.oid b db1
      | none => db1
    saveState bm rest db2

/-- The push loop of `push` in `crates/yggit-core`: per target branch,
move the local branch to the commit, then push (force-with-lease when
`force` is set, plain otherwise).  `setBranchRes` and `pushRes` are the
collaborator outcomes; the collected `Result` short-circuits at the
first error.  Returns the outcome, the branch moves performed, and the
pushes attempted as `(force, origin, branch)` triples. -/
def pushPhase (setBranchRes : String → String → Except YGit.GitError Unit)
    (pushRes : Bool → String → String → Except YGit.GitError Unit) (force : Bool) :
    Db → Except CoreError Unit × List (String × String) × List (Bool × String × String)
  | [] => (Except.ok (), [], [])
  | (oid, b) :: rest =>
    match setBranchRes b.target oid with
    | Except.error e => (Except.error (CoreError.GitError e), [(b.target, oid)], [])
    | Except.ok () =>
      let origin := b.origin.getD ("origin")
      match pushRes force origin b.target with
      | Except.error e =>
        (Except.error (CoreError.GitError e), [(b.target, oid)], [(force, origin, b.target)])
      | Except.ok () =>
        let r := pushPhase setBranchRes pushRes force rest
        (r.1, (b.target, oid) :: r.2.1, (force, origin, b.target) :: r.2.2)

/-- The observable outcome of one `push` invocation: its result, the
final state of the metadata store, the branch moves performed, and the
pushes attempted. -/
structure RunOut where
  result : Except CoreError Unit
  db : Db
  moves : List (String × String)
  pushes : List (Bool × String × String)

/-- `push` of `crates/yggit-core/src/lib.rs`.  `edited` is the plan text
returned by the external editor (which received `todoLines commits db0`);
parsing it, collecting the `(commit, branch)` pairs, persisting the new
state, and — unless `noPush` is set — moving and pushing each target
branch. -/
def push (commits : List Commit) (db0 : Db) (edited : List String)
    (setBranchRes : String → String → Except YGit.GitError Unit)
    (pushRes : Bool → String → String → Except YGit.GitError Unit)
    (force noPush : Bool) : RunOut :=
  match YParser.parseLines edited with
  | Except.error e =>
    { result := Except.error (CoreError.ParserError e), db := db0, moves := [], pushes := [] }
  | Except.ok parsed =>
    match buildBranches (windows2 parsed) with
    | Except.error e => { result := Except.error e, db := db0, moves := [], pushes := [] }
    | Except.ok bm =>
      let db1 := saveState bm commits db0
      if noPush then { result := Except.ok (), db := db1, moves := [], pushes := [] }
      else
        let r := pushPhase setBranchRes pushRes force bm
        { result := r.1, db := db1, moves := r.2.1, pushes := r.2.2 }

/-- `apply` of `crates/yggit-core/src/lib.rs`: `push` with `force`
fixed to `false` and `no_push` fixed to `true`. -/
def apply (commits : List Commit) (db0 : Db) (edited : List String)
    (setBranchRes : String → String → Except YGit.GitError Unit)
    (pushRes : Bool → String → String → Except YGit.GitError Unit) : RunOut :=
  push commits db0 edited setBranchRes pushRes false true

end YCore

section Lemmas

/-- Appending strings concatenates their character lists. -/
theorem str_data_append (a b : String) : (a ++ b).data = a.data ++ b.data := by
  cases a
  cases b
  rfl

/-- Rebuilding a string from its character list is the identity. -/
theorem str_mk_data (s : String) : String.mk s.data = s := by
  cases s
  rfl

/-- `Str.splitChar` never returns the empty list. -/
theorem splitChar_ne_nil (c : Char) (l : List Char) : Str.splitChar c l ≠ [] := by
  induction l with
  | nil => simp [Str.splitChar]
  | cons x xs ih =>
    simp only [Str.splitChar]
    by_cases hx : x = c
    · simp [hx]
    · simp only [if_neg hx]
      rcases h : Str.splitChar c xs with _ | ⟨h₁, t⟩
      · simp
      · simp

/-- Splitting a separator-free list yields the single piece. -/
theorem splitChar_not_mem (c : Char) (l : List Char) (h : c ∉ l) :
    Str.splitChar c l = [l] := by
  induction l with
  | nil => rfl
  | cons x xs ih =>
    have hx : x ≠ c := fun e => h (by simp [e])
    have hxs : c ∉ xs := fun m => h (by simp [m])
    simp only [Str.splitChar, if_neg hx, ih hxs]

/-- Splitting at the first separator detaches the separator-free prefix. -/
theorem splitChar_append (c : Char) (a b : List Char) (h : c ∉ a) :
    Str.splitChar c (a ++ c :: b) = a :: Str.splitChar c b := by
  induction a with
  | nil => simp [Str.splitChar]
  | cons x a' ih =>
    have hx : x ≠ c := fun e => h (by simp [e])
    have ha : c ∉ a' := fun m => h (by simp [m])
    simp only [List.cons_append, Str.splitChar, if_neg hx, List.append_eq, ih ha]

/-- `Str.splitFirst` on a separator-free list finds nothing. -/
theorem splitFirst_not_mem (c : Char) (l : List Char) (h : c ∉ l) :
    Str.splitFirst c l = (l, none) := by
  induction l with
  | nil => rfl
  | cons x xs ih =>
    have hx : x ≠ c := fun e => h (by simp [e])
    have hxs : c ∉ xs := fun m => h (by simp [m])
    simp [Str.splitFirst, if_neg hx, ih hxs]

/-- `Str.splitFirst` splits at the first occurrence of the separator. -/
theorem splitFirst_append (c : Char) (a b : List Char) (h : c ∉ a) :
    Str.splitFirst c (a ++ c :: b) = (a, some b) := by
  induction a with
  | nil => simp [Str.splitFirst]
  | cons x a' ih =>
    have hx : x ≠ c := fun e => h (by simp [e])
    have ha : c ∉ a' := fun m => h (by simp [m])
    simp [Str.splitFirst, if_neg hx, ih ha]

/-- Joining then splitting on newline recovers the lines, provided no
line contains a newline itself. -/
theorem splitChar_joinLines (ls : List (List Char)) (hne : ls ≠ [])
    (h : ∀ l ∈ ls, ('\n') ∉ l) :
    Str.splitChar '\n' (Str.joinLines ls) = ls := by
  induction ls with
  | nil => exact absurd rfl hne
  | cons x xs ih =>
    cases xs with
    | nil =>
      simp only [Str.joinLines]
      exact splitChar_not_mem _ _ (h x (by simp))
    | cons y ys =>
      have hx : ('\n') ∉ x := h x (by simp)
      have hrest : ∀ l ∈ y :: ys, ('\n') ∉ l := fun l hl => h l (by simp [hl])
      simp only [Str.joinLines]
      rw [splitChar_append _ _ _ hx, ih (by simp) hrest]

end Lemmas

section NegotiationClaims

/-- C1: for a force-with-lease push of an existing remote branch, the
negotiation compares the remote's reported position (`src`) with the
locally recorded remote-tracking position; equality accepts the push
(data transfer proceeds and the operation succeeds), inequality rejects
it as diverged, transfers no data, and returns the diverged error — in
both `src/git/git.rs` and `crates/yggit-git`. -/
theorem forceWithLease_lease_decides (repo : GitRs.Repo) (origin rn b : String)
    (lease : Nat) (u : GitRs.RemoteUpdate) (us : List GitRs.RemoteUpdate)
    (h0 : u.src ≠ 0) (h1 : u.srcRefname = some rn)
    (h2 : GitRs.stripRefsHeads rn = some b)
    (h3 : GitRs.findRemoteOid repo origin b = some lease) :
    (u.src = lease →
      GitRs.negotiationCallback repo origin GitRs.PushMode.ForceWithLease (u :: us)
        = (some GitRs.PushStatus.Pushed, true) ∧
      GitRs.push repo origin GitRs.PushMode.ForceWithLease (u :: us) = (Except.ok (), true) ∧
      YGit.negotiationFWL repo origin (u :: us)
        = (some YGit.NegotiationResult.AllowedToPush, true)) ∧
    (u.src ≠ lease →
      GitRs.negotiationCallback repo origin GitRs.PushMode.ForceWithLease (u :: us)
        = (some (GitRs.PushStatus.Error GitRs.PushError.RemoteOriginDiverged), false) ∧
      GitRs.push repo origin GitRs.PushMode.ForceWithLease (u :: us)
        = (Except.error ("remote has diverged"), false) ∧
      YGit.negotiationFWL repo origin (u :: us)
        = (some YGit.NegotiationResult.RemoteDiverged, false) ∧
      (∀ pres : Except String Unit,
        YGit.customPushResult b origin YGit.NegotiationResult.RemoteDiverged pres
          = Except.error (YGit.GitError.NotPushed b origin
              ("the origin on the server is not the same as the local one")))) := by
  constructor
  · intro h
    subst h
    refine ⟨?_, ?_, ?_⟩ <;>
      simp [GitRs.negotiationCallback, GitRs.push, GitRs.pushResult, YGit.negotiationFWL,
        h0, h1, h2, h3]
  · intro h
    refine ⟨?_, ?_, ?_, ?_⟩ <;>
      simp [GitRs.negotiationCallback, GitRs.push, GitRs.pushResult, YGit.negotiationFWL,
        YGit.customPushResult, h0, h1, h2, h3, h]

/-- Witness for C1: a concrete repository where the lease matches (push
accepted) and one where the remote moved (push rejected as diverged,
nothing transferred). -/
theorem forceWithLease_lease_decides_witness :
    GitRs.push
        { refs := fun s => if s = ("refs/remotes/origin/main") then some 5 else none }
        ("origin") GitRs.PushMode.ForceWithLease
        [{ src := 5, srcRefname := some ("refs/heads/main"), dst := 9 }]
      = (Except.ok (), true) ∧
    GitRs.push
        { refs := fun s => if s = ("refs/remotes/origin/main") then some 5 else none }
        ("origin") GitRs.PushMode.ForceWithLease
        [{ src := 7, srcRefname := some ("refs/heads/main"), dst := 9 }]
      = (Except.error ("remote has diverged"), false) := by
  constructor
  · exact ((forceWithLease_lease_decides
      { refs := fun s => if s = ("refs/remotes/origin/main") then some 5 else none }
      ("origin") ("refs/heads/main") ("main") 5
      { src := 5, srcRefname := some ("refs/heads/main"), dst := 9 } []
      (by decide) rfl (by decide) (by decide)).1 rfl).2.1
  · exact ((forceWithLease_lease_decides
      { refs := fun s => if s = ("refs/remotes/origin/main") then some 5 else none }
      ("origin") ("refs/heads/main") ("main") 5
      { src := 7, srcRefname := some ("refs/heads/main"), dst := 9 } []
      (by decide) rfl (by decide) (by decide)).2 (by decide)).2.1

/-- C2 (amended): in `Normal` mode against an existing remote branch the
negotiation of `src/git/git.rs` performs no fast-forward check at all —
it unconditionally rejects with the not-yet-implemented reason — while
the `Normal`/`Force` callback of `crates/yggit-git` unconditionally
accepts the update at negotiation time. -/
theorem normal_mode_no_ff_check (repo : GitRs.Repo) (origin : String)
    (u : GitRs.RemoteUpdate) (us : List GitRs.RemoteUpdate) (h : u.src ≠ 0) :
    GitRs.negotiationCallback repo origin GitRs.PushMode.Normal (u :: us)
      = (some (GitRs.PushStatus.Error GitRs.PushError.NotYetImplemented), false) ∧
    GitRs.push repo origin GitRs.PushMode.Normal (u :: us)
      = (Except.error ("not yet implemented"), false) ∧
    YGit.negotiationNF (u :: us) = (some YGit.NegotiationResult.AllowedToPush, true) := by
  refine ⟨?_, ?_, ?_⟩ <;>
    simp [GitRs.negotiationCallback, GitRs.push, GitRs.pushResult, YGit.negotiationNF, h]

/-- Witness for C2's amended statement at a concrete update. -/
theorem normal_mode_no_ff_check_witness :
    GitRs.push { refs := fun _ => none } ("origin") GitRs.PushMode.Normal
        [{ src := 1, srcRefname := some ("refs/heads/main"), dst := 2 }]
      = (Except.error ("not yet implemented"), false) := by
  exact (normal_mode_no_ff_check { refs := fun _ => none } ("origin")
    { src := 1, srcRefname := some ("refs/heads/main"), dst := 2 } [] (by decide)).2.1

/-- Counterexample for C2 as stated: a request that is a strict
fast-forward of the remote's current position (position 2 is a
descendant of the remote's 1 and differs from it) is nevertheless not
accepted by the negotiation, so acceptance is not equivalent to the
fast-forward condition. -/
theorem normal_mode_ff_claim_cex :
    ¬ (((GitRs.negotiationCallback { refs := fun _ => none } ("origin") GitRs.PushMode.Normal
          [{ src := 1, srcRefname := some ("refs/heads/main"), dst := 2 }]).2 = true)
        ↔ GitRs.normalAcceptSpec (fun d s => d = 2 && s = 1) 1 2 = true) := by
  decide

/-- C4: whenever the remote reports the null object as the branch's
current position (the branch does not exist yet), every mode accepts the
push as a new branch and the push succeeds, in both code bases. -/
theorem new_branch_always_accepted (repo : GitRs.Repo) (origin branch : String)
    (mode : GitRs.PushMode) (u : GitRs.RemoteUpdate) (us : List GitRs.RemoteUpdate)
    (h : u.src = 0) :
    GitRs.negotiationCallback repo origin mode (u :: us)
      = (some GitRs.PushStatus.NewBranchPushed, true) ∧
    GitRs.push repo origin mode (u :: us) = (Except.ok (), true) ∧
    YGit.negotiationNF (u :: us) = (some YGit.NegotiationResult.AllowedToPushNewBranch, true) ∧
    YGit.negotiationFWL repo origin (u :: us)
      = (some YGit.NegotiationResult.AllowedToPushNewBranch, true) ∧
    YGit.customPushResult branch origin YGit.NegotiationResult.AllowedToPushNewBranch
        (Except.ok ()) = Except.ok () := by
  refine ⟨?_, ?_, ?_, ?_, ?_⟩ <;>
    simp [GitRs.negotiationCallback, GitRs.push, GitRs.pushResult, YGit.negotiationNF,
      YGit.negotiationFWL, YGit.customPushResult, h]

/-- Witness for C4 at a concrete new-branch update, in each of the three
modes. -/
theorem new_branch_always_accepted_witness :
    GitRs.push { refs := fun _ => none } ("origin") GitRs.PushMode.Normal
        [{ src := 0, srcRefname := some ("refs/heads/feature"), dst := 3 }]
      = (Except.ok (), true) ∧
    GitRs.push { refs := fun _ => none } ("origin") GitRs.PushMode.Force
        [{ src := 0, srcRefname := some ("refs/heads/feature"), dst := 3 }]
      = (Except.ok (), true) ∧
    GitRs.push { refs := fun _ => none } ("origin") GitRs.PushMode.ForceWithLease
        [{ src := 0, srcRefname := some ("refs/heads/feature"), dst := 3 }]
      = (Except.ok (), true) := by
  refine ⟨?_, ?_, ?_⟩
  · exact (new_branch_always_accepted { refs := fun _ => none } ("origin") ("feature")
      GitRs.PushMode.Normal
      { src := 0, srcRefname := some ("refs/heads/feature"), dst := 3 } [] rfl).2.1
  · exact (new_branch_always_accepted { refs := fun _ => none } ("origin") ("feature")
      GitRs.PushMode.Force
      { src := 0, srcRefname := some ("refs/heads/feature"), dst := 3 } [] rfl).2.1
  · exact (new_branch_always_accepted { refs := fun _ => none } ("origin") ("feature")
      GitRs.PushMode.ForceWithLease
      { src := 0, srcRefname := some ("refs/heads/feature"), dst := 3 } [] rfl).2.1

end NegotiationClaims

section StoreAndMergeClaims

/-- Characters of a rebuilt string. -/
theorem str_data_mk (cs : List Char) : (String.mk cs).data = cs := rfl

/-- C3 (evaluating the code at the failing input): in `push_from_notes`
of `src/core.rs`, a branch whose remote has diverged makes the push loop
`return`, so the remaining branches are never attempted — here branch
`b2` is pushable (its push loop alone would attempt it) and the crates
pipeline `pushPhase` short-circuits the same way, yet the full runs
attempt nothing beyond the failure. -/
theorem push_failure_short_circuits :
    CoreRs.pushFromNotes
        { commits :=
            [{ id := 1, title := ("a"), description := none,
               note := some { push := some { target := ("b1") }, tests := [] } },
             { id := 2, title := ("b"), description := none,
               note := some { push := some { target := ("b2") }, tests := [] } }],
          findLocalRemoteHead := fun t => if t = ("b1") then some 10 else some 20,
          findRemoteHead := fun t => if t = ("b1") then some 11 else some 20,
          headOf := fun t => if t = ("b1") then some 1 else some 2 }
      = ([(("b1"), 1), (("b2"), 2)], []) ∧
    CoreRs.pushLoop
        { commits := [],
          findLocalRemoteHead := fun t => if t = ("b1") then some 10 else some 20,
          findRemoteHead := fun t => if t = ("b1") then some 11 else some 20,
          headOf := fun t => if t = ("b1") then some 1 else some 2 }
        [{ id := 2, title := ("b"), description := none,
           note := some { push := some { target := ("b2") }, tests := [] } }]
      = [("b2")] ∧
    (YCore.pushPhase (fun _ _ => Except.ok ())
        (fun _ _ br =>
          if br = ("b1") then Except.error (YGit.GitError.NotPushed ("b1") ("origin") ("diverged"))
          else Except.ok ())
        false
        [(("aaaaaaaaaaaaaaaaaaaaaaaaaaaaaaaaaaaaaaa1"), { target := ("b1"), origin := none }),
         (("aaaaaaaaaaaaaaaaaaaaaaaaaaaaaaaaaaaaaaa2"), { target := ("b2"), origin := none })]).2.2
      = [(false, ("origin"), ("b1"))] := by
  refine ⟨?_, ?_, ?_⟩ <;> decide

/-- C6: the merge engine's `next_note` computation replaces only the
field its policy covers — target-only merging preserves the stored test
list exactly (while replacing, or clearing, the push target), and
tests-only merging preserves the stored push target; consequently the
record `merge_notes` persists for the commit keeps the old tests under
target-only merging. -/
theorem merge_policy_isolation (cur : Option CoreRs.Note) (pc : CoreRs.Commit)
    (notes : Nat → Option CoreRs.Note) :
    (CoreRs.nextNote cur CoreRs.NoteMergingPolicy.OnlyTarget pc).tests
      = (cur.getD CoreRs.Note.default).tests ∧
    (CoreRs.nextNote cur CoreRs.NoteMergingPolicy.OnlyTarget pc).push
      = pc.target.map (fun t => { target := t }) ∧
    (CoreRs.nextNote cur CoreRs.NoteMergingPolicy.OnlyTests pc).push
      = (cur.getD CoreRs.Note.default).push ∧
    (CoreRs.nextNote cur CoreRs.NoteMergingPolicy.OnlyTests pc).tests = pc.tests ∧
    (∀ n, CoreRs.mergeNotes notes CoreRs.NoteMergingPolicy.OnlyTarget [pc] pc.hash = some n →
      n.tests = ((notes pc.hash).getD CoreRs.Note.default).tests) := by
  refine ⟨?_, ?_, ?_, ?_, ?_⟩
  · cases hp : pc.target <;> simp [CoreRs.nextNote, hp]
  · cases hp : pc.target <;> simp [CoreRs.nextNote, hp]
  · simp [CoreRs.nextNote]
  · simp [CoreRs.nextNote]
  · intro n hn
    simp only [CoreRs.mergeNotes, apply_ite (f := fun f : Nat → Option CoreRs.Note => f pc.hash),
      if_pos rfl] at hn
    by_cases he : (CoreRs.nextNote (notes pc.hash) CoreRs.NoteMergingPolicy.OnlyTarget pc).isEmpty
      = true
    · rw [if_pos he] at hn
      cases hn
    · rw [if_neg he] at hn
      have hn' : n = CoreRs.nextNote (notes pc.hash) CoreRs.NoteMergingPolicy.OnlyTarget pc :=
        (Option.some.inj hn).symm
      subst hn'
      cases hp : pc.target <;> simp [CoreRs.nextNote, hp]

/-- Witness for C6's store-level conjunct at a concrete merge. -/
theorem merge_policy_isolation_witness :
    ({ push := some { target := ("y") }, tests := [] } : CoreRs.Note).tests
      = (((fun _ : Nat => (none : Option CoreRs.Note)) 1).getD CoreRs.Note.default).tests :=
  (merge_policy_isolation none { hash := 1, target := some ("y"), tests := [] }
      (fun _ => none)).2.2.2.2
    { push := some { target := ("y") }, tests := [] } (by decide)

/-- C7: if no persisted record equals the all-empty default before a
`merge_notes` run, none does afterwards — the merge engine deletes a
record that would become the default instead of writing it. -/
theorem merged_store_never_default (notes : Nat → Option CoreRs.Note)
    (policy : CoreRs.NoteMergingPolicy) (pcs : List CoreRs.Commit)
    (h : ∀ o n, notes o = some n → n ≠ CoreRs.Note.default) :
    ∀ o n, CoreRs.mergeNotes notes policy pcs o = some n → n ≠ CoreRs.Note.default := by
  induction pcs generalizing notes with
  | nil => simpa [CoreRs.mergeNotes] using h
  | cons c rest ih =>
    simp only [CoreRs.mergeNotes]
    apply ih
    intro o n hsome
    by_cases he : (CoreRs.nextNote (notes c.hash) policy c).isEmpty = true
    · rw [if_pos he] at hsome
      by_cases ho : o = c.hash
      · simp [ho] at hsome
      · simp only [if_neg ho] at hsome
        exact h o n hsome
    · rw [if_neg he] at hsome
      by_cases ho : o = c.hash
      · simp only [ho, if_pos rfl] at hsome
        have hn' : n = CoreRs.nextNote (notes c.hash) policy c := (Option.some.inj hsome).symm
        subst hn'
        simpa [CoreRs.Note.isEmpty] using he
      · simp only [if_neg ho] at hsome
        exact h o n hsome

/-- Witness for C7: starting from the empty store, a target-only merge
of one instruction leaves no record equal to the default. -/
theorem merged_store_never_default_witness :
    (∀ o n, (fun _ : Nat => (none : Option CoreRs.Note)) o = some n →
      n ≠ CoreRs.Note.default) ∧
    (∀ o n, CoreRs.mergeNotes (fun _ => none) CoreRs.NoteMergingPolicy.OnlyTarget
        [{ hash := 1, target := some ("b"), tests := [] }] o = some n →
      n ≠ CoreRs.Note.default) :=
  ⟨(fun _ _ hx => nomatch hx),
   merged_store_never_default (fun _ => none) CoreRs.NoteMergingPolicy.OnlyTarget
     [{ hash := 1, target := some ("b"), tests := [] }] (fun _ _ hx => nomatch hx)⟩

/-- C9: `Git::find_note` discards blank lines of the stored blob and
hands exactly the last non-empty line to the deserializer; in
particular, prepending any earlier lines (as note concatenation of
combined commits does) never changes the result as long as a non-empty
line remains. -/
theorem find_note_uses_last_nonblank_line {α : Type} (d : String → Option α)
    (ls pre : List (List Char))
    (h : ∀ l ∈ ls, ('\n') ∉ l) (hpre : ∀ l ∈ pre, ('\n') ∉ l) (hne : ls ≠ []) :
    GitRs.findNote d (some (String.mk (Str.joinLines ls)))
      = ((ls.filter GitRs.lineNonBlank).getLast?).bind (fun l => d (String.mk l)) ∧
    ((ls.filter GitRs.lineNonBlank) ≠ [] →
      GitRs.findNote d (some (String.mk (Str.joinLines (pre ++ ls))))
        = GitRs.findNote d (some (String.mk (Str.joinLines ls)))) := by
  have key : ∀ (ms : List (List Char)), ms ≠ [] → (∀ l ∈ ms, ('\n') ∉ l) →
      GitRs.findNote d (some (String.mk (Str.joinLines ms)))
        = ((ms.filter GitRs.lineNonBlank).getLast?).bind (fun l => d (String.mk l)) := by
    intro ms hm hml
    simp only [GitRs.findNote, Option.some_bind, str_data_mk]
    rw [splitChar_joinLines ms hm hml]
    cases hx : (ms.filter GitRs.lineNonBlank).getLast? <;> simp [hx]
  refine ⟨key ls hne h, ?_⟩
  intro hf
  have hml : ∀ l ∈ pre ++ ls, ('\n') ∉ l := by
    intro l hl
    rcases List.mem_append.mp hl with hl | hl
    · exact hpre l hl
    · exact h l hl
  have hmne : pre ++ ls ≠ [] := by
    intro hx
    exact hne (List.append_eq_nil.mp hx).2
  rw [key (pre ++ ls) hmne hml, key ls hne h, List.filter_append,
    List.getLast?_append_of_ne_nil _ hf]

/-- Witness for C9: a three-line blob whose earlier content and blank
line are ignored; only the final line is decoded. -/
theorem find_note_uses_last_nonblank_line_witness :
    GitRs.findNote (fun s => if s = ("B") then some 2 else none)
        (some (String.mk (Str.joinLines [['A'], [' '], ['B']]))) = some 2 := by
  rw [(find_note_uses_last_nonblank_line (fun s => if s = ("B") then some 2 else none)
    [['A'], [' '], ['B']] [] (by decide) (by decide) (by decide)).1]
  decide

end StoreAndMergeClaims

section ParserClaims

/-- A hex digit is never whitespace. -/
theorem hex_not_ws (c : Char) (h : YParser.isHexDigitCh c = true) :
    c.isWhitespace = false := by
  by_contra hw
  rw [Bool.not_eq_false] at hw
  simp [Char.isWhitespace] at hw
  rcases hw with ((hw | hw) | hw) | hw <;> subst hw <;> exact absurd h (by decide)

/-- A hex digit differs from any non-hex character. -/
theorem hex_ne_of (c x : Char) (h : YParser.isHexDigitCh c = true)
    (hx : YParser.isHexDigitCh x = false) : c ≠ x := by
  intro e
  subst e
  rw [h] at hx
  cases hx

/-- A non-hex character cannot occur in an all-hex list. -/
theorem not_mem_of_all_hex (l : List Char) (hl : l.all YParser.isHexDigitCh = true)
    (x : Char) (hx : YParser.isHexDigitCh x = false) : x ∉ l := by
  intro hm
  have h2 := List.all_eq_true.mp hl x hm
  rw [hx] at h2
  cases h2

/-- The separator `:` cannot occur in a branch/origin token. -/
theorem colon_not_mem (l : List Char) (hl : l.all YParser.branchChar = true) : (':') ∉ l := by
  intro hm
  exact absurd (List.all_eq_true.mp hl _ hm) (by decide)

/-- Characters of a rendered commit line. -/
theorem render_commit_data (c : YParser.Commit) :
    (YParser.renderLine (YParser.Line.Commit c)).data = c.sha.data ++ (' ') :: c.title.data := by
  simp [YParser.renderLine, str_data_append]

/-- Characters of a rendered target line without origin. -/
theorem render_branch_none_data (name : String) :
    (YParser.renderLine (YParser.Line.Branch { origin := none, name := name })).data
      = ('-') :: ('>') :: (' ') :: name.data := by
  simp [YParser.renderLine, str_data_append]

/-- Characters of a rendered target line with origin. -/
theorem render_branch_some_data (o name : String) :
    (YParser.renderLine (YParser.Line.Branch { origin := some o, name := name })).data
      = ('-') :: ('>') :: (' ') :: (o.data ++ (':') :: name.data) := by
  simp [YParser.renderLine, str_data_append]

/-- Parsing a well-formed commit line recovers the commit. -/
theorem parseLineChars_commit (sha title : List Char) (hsha : YParser.shaOk sha = true) :
    YParser.parseLineChars (sha ++ (' ') :: title)
      = Except.ok (some (YParser.Line.Commit
          { sha := String.mk sha, title := String.mk title })) := by
  have hsha' := hsha
  simp only [YParser.shaOk, Bool.and_eq_true] at hsha'
  obtain ⟨hne, hall⟩ := hsha'
  cases sha with
  | nil => simp at hne
  | cons hc0 tl =>
    have hhex0 : YParser.isHexDigitCh hc0 = true := by
      simpa using List.all_eq_true.mp hall hc0 (by simp)
    have hws0 : hc0.isWhitespace = false := hex_not_ws hc0 hhex0
    have hnm : (' ') ∉ hc0 :: tl := not_mem_of_all_hex _ hall (' ') (by decide)
    have c1 : ¬ Str.isBlankLine (hc0 :: (tl ++ (' ') :: title)) = true := by
      simp [Str.isBlankLine, hws0]
    have c2 : ¬ (hc0 :: (tl ++ (' ') :: title)).head? = some ('#') := by
      intro heq
      simp only [List.head?_cons, Option.some.injEq] at heq
      exact hex_ne_of hc0 ('#') hhex0 (by decide) heq
    have c3 : ¬ (hc0 :: (tl ++ (' ') :: title)).take 3 = [('-'), ('>'), (' ')] := by
      intro heq
      simp only [List.take_succ_cons, List.cons.injEq] at heq
      exact hex_ne_of hc0 ('-') hhex0 (by decide) heq.1
    simp only [List.cons_append, YParser.parseLineChars]
    rw [if_neg c1, if_neg c2, if_neg c3]
    simp only [YParser.parseCommit]
    rw [show hc0 :: (tl ++ (' ') :: title) = (hc0 :: tl) ++ (' ') :: title from rfl,
      splitFirst_append _ _ _ hnm]
    simp [hsha]

/-- A target line dispatches to the branch parser on its payload. -/
theorem parseLineChars_branch (payload : List Char) :
    YParser.parseLineChars (('-') :: ('>') :: (' ') :: payload)
      = YParser.parseBranch payload := by
  have h1 : ('-').isWhitespace = false := by decide
  simp [YParser.parseLineChars, Str.isBlankLine, h1]

/-- Parsing a well-formed branch payload without origin. -/
theorem parseBranch_none (name : List Char) (hb : YParser.branchOk name = true) :
    YParser.parseBranch name
      = Except.ok (some (YParser.Line.Branch { origin := none, name := String.mk name })) := by
  have hall : name.all YParser.branchChar = true := by
    simp only [YParser.branchOk, Bool.and_eq_true] at hb
    exact hb.2
  simp only [YParser.parseBranch]
  rw [splitFirst_not_mem _ _ (colon_not_mem name hall)]
  simp [hb]

/-- Parsing a well-formed branch payload with origin. -/
theorem parseBranch_some (o name : List Char) (ho : YParser.branchOk o = true)
    (hn : YParser.branchOk name = true) :
    YParser.parseBranch (o ++ (':') :: name)
      = Except.ok (some (YParser.Line.Branch
          { origin := some (String.mk o), name := String.mk name })) := by
  have hall : o.all YParser.branchChar = true := by
    simp only [YParser.branchOk, Bool.and_eq_true] at ho
    exact ho.2
  simp only [YParser.parseBranch]
  rw [splitFirst_append _ _ _ (colon_not_mem o hall)]
  simp [ho, hn]

/-- Parsing the rendering of any well-formed plan line recovers it. -/
theorem parseLine_renderLine (x : YParser.Line) (h : YParser.lineWF x = true) :
    YParser.parseLine (YParser.renderLine x) = Except.ok (some x) := by
  cases x with
  | Commit c =>
    obtain ⟨sha, title⟩ := c
    have hsha : YParser.shaOk sha.data = true := by
      simp only [YParser.lineWF, Bool.and_eq_true] at h
      exact h.1
    show YParser.parseLineChars (YParser.renderLine (YParser.Line.Commit ⟨sha, title⟩)).data
      = Except.ok (some (YParser.Line.Commit ⟨sha, title⟩))
    rw [render_commit_data, parseLineChars_commit sha.data title.data hsha,
      str_mk_data, str_mk_data]
  | Branch b =>
    obtain ⟨origin, name⟩ := b
    cases origin with
    | none =>
      have hb : YParser.branchOk name.data = true := by
        simpa [YParser.lineWF] using h
      show YParser.parseLineChars
          (YParser.renderLine (YParser.Line.Branch ⟨none, name⟩)).data
        = Except.ok (some (YParser.Line.Branch ⟨none, name⟩))
      rw [render_branch_none_data, parseLineChars_branch, parseBranch_none name.data hb,
        str_mk_data]
    | some o =>
      have hb : YParser.branchOk name.data = true ∧ YParser.branchOk o.data = true := by
        simpa [YParser.lineWF, Bool.and_eq_true] using h
      show YParser.parseLineChars
          (YParser.renderLine (YParser.Line.Branch ⟨some o, name⟩)).data
        = Except.ok (some (YParser.Line.Branch ⟨some o, name⟩))
      rw [render_branch_some_data, parseLineChars_branch,
        parseBranch_some o.data name.data hb.2 hb.1, str_mk_data, str_mk_data]

/-- Parsing the rendering of a well-formed plan recovers every line in
order. -/
theorem parseLines_renderLines (xs : List YParser.Line)
    (h : ∀ x ∈ xs, YParser.lineWF x = true) :
    YParser.parseLines (YParser.renderLines xs) = Except.ok xs := by
  induction xs with
  | nil => rfl
  | cons x xs ih =>
    have ih' := ih (fun y hy => h y (by simp [hy]))
    simp only [YParser.renderLines, List.map_cons] at ih' ⊢
    simp only [YParser.parseLines, parseLine_renderLine x (h x (by simp)), ih']

/-- C8: for every plan whose entries carry representable tokens, parsing
the rendered plan yields exactly the input lines — same commits, same
targets, same order (test lines do not exist in the crates parser's
`Line` type, so test lists are preserved vacuously) — and re-rendering
the parse of a rendered plan reproduces the same text. -/
theorem plan_roundtrip (xs : List YParser.Line) (h : ∀ x ∈ xs, YParser.lineWF x = true) :
    YParser.parseLines (YParser.renderLines xs) = Except.ok xs ∧
    (YParser.parseLines (YParser.renderLines xs)).map YParser.renderLines
      = Except.ok (YParser.renderLines xs) := by
  have h1 := parseLines_renderLines xs h
  exact ⟨h1, by rw [h1]; rfl⟩

/-- Witness for C8: a concrete four-line plan with and without origins
round-trips. -/
theorem plan_roundtrip_witness :
    YParser.parseLines (YParser.renderLines
        [YParser.Line.Commit { sha := ("ab12"), title := ("hello world") },
         YParser.Line.Branch { origin := some ("origin"), name := ("feature") },
         YParser.Line.Commit { sha := ("ffff"), title := ("x") },
         YParser.Line.Branch { origin := none, name := ("dev") }])
      = Except.ok
        [YParser.Line.Commit { sha := ("ab12"), title := ("hello world") },
         YParser.Line.Branch { origin := some ("origin"), name := ("feature") },
         YParser.Line.Commit { sha := ("ffff"), title := ("x") },
         YParser.Line.Branch { origin := none, name := ("dev") }] :=
  (plan_roundtrip
    [YParser.Line.Commit { sha := ("ab12"), title := ("hello world") },
     YParser.Line.Branch { origin := some ("origin"), name := ("feature") },
     YParser.Line.Commit { sha := ("ffff"), title := ("x") },
     YParser.Line.Branch { origin := none, name := ("dev") }] (by decide)).1

end ParserClaims


section CoreClaims

/-- Looking up a key just inserted finds the new value. -/
theorem lookup_insert_self (k : String) (v : YCore.Branch) (db : YCore.Db) :
    YCore.lookupKV k (YCore.insertKV k v db) = some v := by
  induction db with
  | nil => simp [YCore.insertKV, YCore.lookupKV]
  | cons p rest ih =>
    obtain ⟨k', v'⟩ := p
    by_cases hk : k' = k
    · simp [YCore.insertKV, hk, YCore.lookupKV]
    · simp [YCore.insertKV, hk, YCore.lookupKV, ih]

/-- Inserting one key leaves other keys' lookups unchanged. -/
theorem lookup_insert_other (k k' : String) (v : YCore.Branch) (db : YCore.Db)
    (h : k' ≠ k) : YCore.lookupKV k (YCore.insertKV k' v db) = YCore.lookupKV k db := by
  induction db with
  | nil => simp [YCore.insertKV, YCore.lookupKV, h]
  | cons p rest ih =>
    obtain ⟨a, b⟩ := p
    by_cases ha : a = k'
    · subst ha
      simp [YCore.insertKV, YCore.lookupKV, h]
    · have e1 : YCore.insertKV k' v ((a, b) :: rest) = (a, b) :: YCore.insertKV k' v rest := by
        simp [YCore.insertKV, ha]
      rw [e1]
      by_cases hak : a = k
      · simp [YCore.lookupKV, hak]
      · simp [YCore.lookupKV, hak, ih]

/-- Looking up a deleted key finds nothing. -/
theorem lookup_erase_self (k : String) (db : YCore.Db) :
    YCore.lookupKV k (YCore.eraseKV k db) = none := by
  induction db with
  | nil => rfl
  | cons p rest ih =>
    obtain ⟨a, b⟩ := p
    by_cases ha : a = k
    · simp [YCore.eraseKV, ha, ih]
    · simp [YCore.eraseKV, ha, YCore.lookupKV, ih]

/-- Deleting one key leaves other keys' lookups unchanged. -/
theorem lookup_erase_other (k k' : String) (db : YCore.Db) (h : k' ≠ k) :
    YCore.lookupKV k (YCore.eraseKV k' db) = YCore.lookupKV k db := by
  induction db with
  | nil => rfl
  | cons p rest ih =>
    obtain ⟨a, b⟩ := p
    by_cases ha : a = k'
    · subst ha
      simp [YCore.eraseKV, YCore.lookupKV, h, ih]
    · have e1 : YCore.eraseKV k' ((a, b) :: rest) = (a, b) :: YCore.eraseKV k' rest := by
        simp [YCore.eraseKV, ha]
      rw [e1]
      by_cases hak : a = k
      · simp [YCore.lookupKV, hak]
      · simp [YCore.lookupKV, hak, ih]

/-- The save-state loop does not touch keys outside the processed
commits. -/
theorem saveState_frame (bm : YCore.Db) (cs : List YCore.Commit) (db : YCore.Db)
    (k : String) (h : ∀ c ∈ cs, c.oid ≠ k) :
    YCore.lookupKV k (YCore.saveState bm cs db) = YCore.lookupKV k db := by
  induction cs generalizing db with
  | nil => rfl
  | cons c rest ih =>
    have hc : c.oid ≠ k := h c (by simp)
    cases hbm : YCore.lookupKV c.oid bm with
    | none =>
      simp only [YCore.saveState, hbm]
      rw [ih _ (fun d hd => h d (by simp [hd]))]
      exact lookup_erase_other _ _ _ hc
    | some b =>
      simp only [YCore.saveState, hbm]
      rw [ih _ (fun d hd => h d (by simp [hd]))]
      rw [lookup_insert_other _ _ _ _ hc]
      exact lookup_erase_other _ _ _ hc

/-- After the save-state loop, each listed commit's persisted record is
exactly what the edited plan assigns it. -/
theorem saveState_mem (bm : YCore.Db) (cs : List YCore.Commit) (db : YCore.Db)
    (hnd : (cs.map YCore.Commit.oid).Nodup) (c : YCore.Commit) (hc : c ∈ cs) :
    YCore.lookupKV c.oid (YCore.saveState bm cs db) = YCore.lookupKV c.oid bm := by
  induction cs generalizing db with
  | nil => cases hc
  | cons d rest ih =>
    simp only [List.map_cons, List.nodup_cons] at hnd
    obtain ⟨hd, hnd'⟩ := hnd
    rcases List.mem_cons.mp hc with rfl | hc
    · have hfr : ∀ e ∈ rest, e.oid ≠ c.oid := by
        intro e he heq
        exact hd (heq ▸ List.mem_map_of_mem YCore.Commit.oid he)
      cases hbm : YCore.lookupKV c.oid bm with
      | none =>
        simp only [YCore.saveState, hbm]
        rw [saveState_frame bm rest _ _ hfr]
        exact lookup_erase_self _ _
      | some b =>
        simp only [YCore.saveState, hbm]
        rw [saveState_frame bm rest _ _ hfr]
        exact lookup_insert_self _ _ _
    · cases hbm : YCore.lookupKV d.oid bm with
      | none =>
        simp only [YCore.saveState, hbm]
        exact ih _ hnd' hc
      | some b =>
        simp only [YCore.saveState, hbm]
        exact ih _ hnd' hc

/-- C5: when the edited plan text is malformed — the parser rejects it,
or a parsed commit id fails oid validation — the whole run fails before
any effect: the metadata store is unchanged, no branch is moved and
nothing is pushed. -/
theorem parse_failure_all_or_nothing (commits : List YCore.Commit) (db0 : YCore.Db)
    (edited : List String)
    (sb : String → String → Except YGit.GitError Unit)
    (pr : Bool → String → String → Except YGit.GitError Unit) (force noPush : Bool) :
    (∀ e, YParser.parseLines edited = Except.error e →
      YCore.push commits db0 edited sb pr force noPush
        = { result := Except.error (YCore.CoreError.ParserError e), db := db0,
            moves := [], pushes := [] }) ∧
    (∀ parsed e, YParser.parseLines edited = Except.ok parsed →
      YCore.buildBranches (YCore.windows2 parsed) = Except.error e →
      YCore.push commits db0 edited sb pr force noPush
        = { result := Except.error e, db := db0, moves := [], pushes := [] }) := by
  constructor
  · intro e he
    simp [YCore.push, he]
  · intro parsed e hp hb
    simp [YCore.push, hp, hb]

/-- Witness for C5: a plan line outside the grammar, and a plan with an
oversized commit id, each reject the run with the store untouched. -/
theorem parse_failure_all_or_nothing_witness :
    YCore.push [] [] [("@@ bad line")] (fun _ _ => Except.ok ())
        (fun _ _ _ => Except.ok ()) false false
      = { result := Except.error (YCore.CoreError.ParserError YParser.ParserError.IsNotFile),
          db := [], moves := [], pushes := [] } ∧
    YCore.push [] [] [("aaaaaaaaaaaaaaaaaaaaaaaaaaaaaaaaaaaaaaaaa t"), ("-> b")] (fun _ _ => Except.ok ())
        (fun _ _ _ => Except.ok ()) false false
      = { result := Except.error (YCore.CoreError.OidParsing ("aaaaaaaaaaaaaaaaaaaaaaaaaaaaaaaaaaaaaaaaa")),
          db := [], moves := [], pushes := [] } :=
  ⟨(parse_failure_all_or_nothing [] [] [("@@ bad line")] (fun _ _ => Except.ok ())
      (fun _ _ _ => Except.ok ()) false false).1 YParser.ParserError.IsNotFile rfl,
   (parse_failure_all_or_nothing [] [] [("aaaaaaaaaaaaaaaaaaaaaaaaaaaaaaaaaaaaaaaaa t"), ("-> b")] (fun _ _ => Except.ok ())
      (fun _ _ _ => Except.ok ()) false false).2
     [YParser.Line.Commit { sha := ("aaaaaaaaaaaaaaaaaaaaaaaaaaaaaaaaaaaaaaaaa"), title := ("t") },
      YParser.Line.Branch { origin := none, name := ("b") }]
     (YCore.CoreError.OidParsing ("aaaaaaaaaaaaaaaaaaaaaaaaaaaaaaaaaaaaaaaaa")) rfl rfl⟩

/-- C10: with the no-push flag set, a successful run still merges and
persists the metadata of every listed commit (each commit's stored
record afterwards is exactly the record the edited plan assigns it), but
moves no branch and attempts no push; and `apply` is exactly `push` with
`force = false` and `no_push = true`. -/
theorem no_push_merges_without_pushing (commits : List YCore.Commit) (db0 : YCore.Db)
    (edited : List String)
    (sb : String → String → Except YGit.GitError Unit)
    (pr : Bool → String → String → Except YGit.GitError Unit) (force : Bool)
    (parsed : List YParser.Line) (bm : YCore.Db)
    (hp : YParser.parseLines edited = Except.ok parsed)
    (hb : YCore.buildBranches (YCore.windows2 parsed) = Except.ok bm)
    (hnd : (commits.map YCore.Commit.oid).Nodup) :
    YCore.push commits db0 edited sb pr force true
      = { result := Except.ok (), db := YCore.saveState bm commits db0,
          moves := [], pushes := [] } ∧
    (∀ c ∈ commits, YCore.lookupKV c.oid (YCore.push commits db0 edited sb pr force true).db
      = YCore.lookupKV c.oid bm) ∧
    YCore.apply commits db0 edited sb pr
      = YCore.push commits db0 edited sb pr false true := by
  have h1 : YCore.push commits db0 edited sb pr force true
      = { result := Except.ok (), db := YCore.saveState bm commits db0,
          moves := [], pushes := [] } := by
    simp [YCore.push, hp, hb]
  refine ⟨h1, ?_, rfl⟩
  intro c hc
  rw [h1]
  exact saveState_mem bm commits db0 hnd c hc

/-- Witness for C10: a one-commit no-push run persists the newly
assigned target and reports success with no moves and no pushes. -/
theorem no_push_merges_without_pushing_witness :
    YCore.push [{ oid := ("aaaaaaaaaaaaaaaaaaaaaaaaaaaaaaaaaaaaaaaa"), title := ("t") }] [] [("aaaaaaaaaaaaaaaaaaaaaaaaaaaaaaaaaaaaaaaa t"), ("-> feature")]
        (fun _ _ => Except.ok ()) (fun _ _ _ => Except.ok ()) false true
      = { result := Except.ok (),
          db := YCore.saveState [(("aaaaaaaaaaaaaaaaaaaaaaaaaaaaaaaaaaaaaaaa"), { target := ("feature"), origin := none })]
            [{ oid := ("aaaaaaaaaaaaaaaaaaaaaaaaaaaaaaaaaaaaaaaa"), title := ("t") }] [],
          moves := [], pushes := [] } ∧
    YCore.lookupKV ("aaaaaaaaaaaaaaaaaaaaaaaaaaaaaaaaaaaaaaaa")
        (YCore.push [{ oid := ("aaaaaaaaaaaaaaaaaaaaaaaaaaaaaaaaaaaaaaaa"), title := ("t") }] [] [("aaaaaaaaaaaaaaaaaaaaaaaaaaaaaaaaaaaaaaaa t"), ("-> feature")]
          (fun _ _ => Except.ok ()) (fun _ _ _ => Except.ok ()) false true).db
      = some { target := ("feature"), origin := none } := by
  have h := no_push_merges_without_pushing [{ oid := ("aaaaaaaaaaaaaaaaaaaaaaaaaaaaaaaaaaaaaaaa"), title := ("t") }] []
    [("aaaaaaaaaaaaaaaaaaaaaaaaaaaaaaaaaaaaaaaa t"), ("-> feature")] (fun _ _ => Except.ok ()) (fun _ _ _ => Except.ok ()) false
    [YParser.Line.Commit { sha := ("aaaaaaaaaaaaaaaaaaaaaaaaaaaaaaaaaaaaaaaa"), title := ("t") },
     YParser.Line.Branch { origin := none, name := ("feature") }]
    [(("aaaaaaaaaaaaaaaaaaaaaaaaaaaaaaaaaaaaaaaa"), { target := ("feature"), origin := none })] rfl rfl (by decide)
  refine ⟨h.1, ?_⟩
  have h2 := h.2.1 { oid := ("aaaaaaaaaaaaaaaaaaaaaaaaaaaaaaaaaaaaaaaa"), title := ("t") } (by simp)
  rw [h2]
  rfl

end CoreClaims
